import Mathlib

/-
Verification of the on-call scheduler core (backend/scheduler.py plus the
request validation in backend/main.py).

Modelling conventions:
* Calendar dates are modelled as natural numbers counting days from a fixed
  Monday epoch, so `date % 7` is the weekday with Monday = 0, matching
  Python's `date.weekday()`.
* The CP-SAT decision variables `shifts[(s, d)]` are modelled as a function
  `x : Nat → Nat → Bool` (staff index, day index).
* The constraint model posted by `OnCallScheduler.generate_schedule` is
  modelled as a decidable proposition `modelSat` over such an assignment;
  auxiliary solver variables (`pair_d`, `min_weekend`, ...) become bounded
  existentials, mirroring their CP-SAT domains.
* Python dicts are modelled as association lists built with insert-or-update
  (`upsert`), preserving the later-write-wins and insertion-order semantics.
-/

/-- Mirror of `StaffMember` in scheduler.py: unavailable days are already
parsed dates (day numbers). -/
structure StaffMember where
  name : String
  role : String
  target_shifts : Nat
  unavailable_days : List Nat
deriving Repr, DecidableEq, Inhabited

/-- `if b then 1 else 0`, the value of a boolean CP-SAT variable in a linear
expression. -/
def bN (b : Bool) : Nat := if b then 1 else 0

/-- Mirror of `[i for i, s in enumerate(staff_members) if s.role == r]`
(scheduler.py lines 57-59). -/
def roleIndices (staff : List StaffMember) (r : String) : List Nat :=
  (staff.enum.filter (fun p => p.2.role == r)).map Prod.fst

/-- Mirror of `self.junior_indices`. -/
def juniorIndices (staff : List StaffMember) : List Nat := roleIndices staff "Junior"

/-- Mirror of `self.intermediate_indices`. -/
def intermediateIndices (staff : List StaffMember) : List Nat := roleIndices staff "Intermediate"

/-- Mirror of `self.senior_indices`. -/
def seniorIndices (staff : List StaffMember) : List Nat := roleIndices staff "Senior"

/-- Mirror of `self.weekend_day_indices`: days whose weekday is Saturday (5)
or Sunday (6) (scheduler.py lines 62-69). -/
def weekendDayIndices (start n : Nat) : List Nat :=
  (List.range n).filter (fun d => (start + d) % 7 == 5 || (start + d) % 7 == 6)

/-- Mirror of `self.friday_day_indices`: days whose weekday is Friday (4). -/
def fridayDayIndices (start n : Nat) : List Nat :=
  (List.range n).filter (fun d => (start + d) % 7 == 4)

/-- Value of `sum(shifts[(i, d)] for i in roleIndices staff r)` on a given
day, for an assignment restricted to that day (`w s = x s d`). -/
def roleWorking (staff : List StaffMember) (r : String) (w : Nat → Bool) : Nat :=
  (roleIndices staff r).countP (fun i => w i)

/-- Value of `total_working = sum(shifts[(s, d)] for s in range(num_staff))`. -/
def totalWorking (staff : List StaffMember) (w : Nat → Bool) : Nat :=
  (List.range staff.length).countP (fun i => w i)

/-- Day-coverage constraints of Hard Constraint 1 (scheduler.py lines 95-130)
for one day, with the auxiliary indicator `pair` (`is_pair` in the source). -/
def dayCoverage (staff : List StaffMember) (w : Nat → Bool) (pair : Bool) : Prop :=
  1 ≤ totalWorking staff w ∧ totalWorking staff w ≤ 2 ∧
  (pair = true →
    totalWorking staff w = 2 ∧ roleWorking staff "Senior" w = 1 ∧
    roleWorking staff "Junior" w = 1 ∧ roleWorking staff "Intermediate" w = 0) ∧
  (pair = false →
    totalWorking staff w = 1 ∧
    roleWorking staff "Intermediate" w + roleWorking staff "Senior" w = 1 ∧
    roleWorking staff "Junior" w = 0)

/-- Hard Constraint 4 (scheduler.py lines 144-150): for each junior, the
number of working seniors is at least the junior's own variable. -/
def juniorNotAlone (staff : List StaffMember) (w : Nat → Bool) : Prop :=
  ∀ j ∈ juniorIndices staff, bN (w j) ≤ roleWorking staff "Senior" w

/-- Number of days of `dayIdx` on which staff `s` works. -/
def shiftsOn (dayIdx : List Nat) (x : Nat → Nat → Bool) (s : Nat) : Nat :=
  dayIdx.countP (fun d => x s d)

/-- `total_shifts = sum(shifts[(s, d)] for d in range(num_days))`. -/
def actualShifts (x : Nat → Nat → Bool) (s n : Nat) : Nat :=
  (List.range n).countP (fun d => x s d)

/-- Target band constraints (scheduler.py lines 152-163).  `t - 1` on `Nat`
is truncated subtraction, which equals the source's `max(0, t - 1)`. -/
def targetBand (staff : List StaffMember) (n : Nat) (x : Nat → Nat → Bool) : Prop :=
  ∀ s < staff.length,
    (staff.getD s default).target_shifts - 1 ≤ actualShifts x s n ∧
    actualShifts x s n ≤ (staff.getD s default).target_shifts + 1

/-- Balance constraints (scheduler.py lines 165-201) for one family of day
indices: the auxiliary `min`/`max` integer variables range over the CP-SAT
domain `[0, |dayIdx|]`, modelled as `Fin (|dayIdx| + 1)`. -/
def balanceCons (dayIdx : List Nat) (numStaff : Nat) (cnt : Nat → Nat) : Prop :=
  0 < dayIdx.length → 1 < numStaff →
    ∃ mn mx : Fin (dayIdx.length + 1),
      mx.val ≤ mn.val + 1 ∧ ∀ s < numStaff, mn.val ≤ cnt s ∧ cnt s ≤ mx.val

/-- All constraints of `generate_schedule` except the target band: coverage,
no back-to-back, unavailability, juniors never alone, weekend and Friday
balance.  The back-to-back loop runs `d` over `range(num_days - 1)`. -/
def modelCore (staff : List StaffMember) (start n : Nat) (x : Nat → Nat → Bool) : Prop :=
  (∀ d < n, ∃ pair : Bool, dayCoverage staff (fun s => x s d) pair)
  ∧ (∀ s < staff.length, ∀ d < n - 1, bN (x s d) + bN (x s (d + 1)) ≤ 1)
  ∧ (∀ s < staff.length, ∀ u ∈ (staff.getD s default).unavailable_days,
       start ≤ u → u < start + n → x s (u - start) = false)
  ∧ (∀ d < n, juniorNotAlone staff (fun s => x s d))
  ∧ balanceCons (weekendDayIndices start n) staff.length (shiftsOn (weekendDayIndices start n) x)
  ∧ balanceCons (fridayDayIndices start n) staff.length (shiftsOn (fridayDayIndices start n) x)

/-- Satisfaction of the complete constraint model posted by
`generate_schedule` by a 0/1 assignment. -/
def modelSat (staff : List StaffMember) (start n : Nat) (x : Nat → Nat → Bool) : Prop :=
  modelCore staff start n x ∧ targetBand staff n x

/-- Modelled from the spec: section 4.6 describes the relaxed-phase model as
the strict model with the per-staff target band dropped and replaced by
`Σ_d x[s,d] ≥ 1` for every staff member.  This definition follows the spec's
words; the source's relaxed rerun is `modelSat (relaxStaff staff)` instead. -/
def specRelaxedModelSat (staff : List StaffMember) (start n : Nat) (x : Nat → Nat → Bool) : Prop :=
  modelCore staff start n x ∧ ∀ s < staff.length, 1 ≤ actualShifts x s n

/-- Mirror of the relaxation step in `generate_schedule_with_relaxation`
(scheduler.py lines 310-312): each target becomes `max(1, target_shifts)`. -/
def relaxStaff (staff : List StaffMember) : List StaffMember :=
  staff.map (fun st => { st with target_shifts := max 1 st.target_shifts })

/-- The strict solve finds no feasible assignment. -/
def strictUnsat (staff : List StaffMember) (start n : Nat) : Prop :=
  ¬ ∃ x : Nat → Nat → Bool, modelSat staff start n x

/-- `generate_schedule_with_relaxation` returns `no_solution` exactly when
both the strict solve and the rerun with relaxed targets are infeasible
(scheduler.py lines 294-320), with the solver abstracted as a satisfiability
oracle. -/
def twoPhaseNoSolution (staff : List StaffMember) (start n : Nat) : Prop :=
  strictUnsat staff start n ∧ strictUnsat (relaxStaff staff) start n

/-- A schedule entry: Python stores either a plain string (solo coverage,
the `" + "`-joined fallback, or `"Unassigned"`) or the senior/junior pair
record (scheduler.py lines 236-253). -/
inductive ScheduleEntry where
  | soloStr (s : String)
  | pairRec (senior junior display : String)
deriving Repr, DecidableEq

/-- Weight of a schedule entry in the spec's date multiset: a solo day
contributes its date once, a pair day twice. -/
def entryWeight : ScheduleEntry → Nat
  | .soloStr _ => 1
  | .pairRec _ _ _ => 2

/-- The `working_staff` list collected for a day (scheduler.py 228-234). -/
def workingList (staff : List StaffMember) (x : Nat → Nat → Bool) (d : Nat) : List StaffMember :=
  (staff.enum.filter (fun p => x p.1 d)).map Prod.snd

/-- Decoding of one day's assignment into a schedule entry
(scheduler.py lines 236-253). -/
def decodeDay (staff : List StaffMember) (x : Nat → Nat → Bool) (d : Nat) : ScheduleEntry :=
  let working := workingList staff x d
  if working.length = 1 then
    .soloStr ((working.getD 0 default).name)
  else if working.length = 2 then
    match working.find? (fun st => st.role == "Senior"),
          working.find? (fun st => st.role == "Junior") with
    | some sr, some jr =>
        .pairRec sr.name jr.name (sr.name ++ " (Sr) + " ++ jr.name ++ " (Jr)")
    | _, _ => .soloStr (String.intercalate " + " (working.map (fun st => st.name)))
  else
    .soloStr "Unassigned"

/-- Insert-or-update on an association list, with the semantics of a Python
dict write: an existing key keeps its position and gets the new value, a new
key is appended. -/
def upsert {κ α : Type} [BEq κ] (m : List (κ × α)) (k : κ) (v : α) : List (κ × α) :=
  if m.any (fun p => p.1 == k) then
    m.map (fun p => if p.1 == k then (k, v) else p)
  else
    m ++ [(k, v)]

/-- A Python dict built by writing the pairs of `l` in order. -/
def dictOfList {κ α : Type} [BEq κ] (l : List (κ × α)) : List (κ × α) :=
  l.foldl (fun m p => upsert m p.1 p.2) []

/-- Lookup in an association list (dict read). -/
def getVal {κ α : Type} [BEq κ] (k : κ) (m : List (κ × α)) : Option α :=
  (m.find? (fun p => p.1 == k)).map Prod.snd

/-- Per-staff tally (scheduler.py lines 262-279).  `days` is the list of
dates on which the staff member works, in ascending order. -/
structure StaffTally where
  role : String
  target : Nat
  actual : Nat
  weekend_shifts : Nat
  friday_shifts : Nat
  days : List Nat
deriving Repr, DecidableEq

/-- The tally computed for staff index `i`. -/
def mkTally (staff : List StaffMember) (start n : Nat) (x : Nat → Nat → Bool) (i : Nat) : StaffTally :=
  { role := (staff.getD i default).role
    target := (staff.getD i default).target_shifts
    actual := actualShifts x i n
    weekend_shifts := shiftsOn (weekendDayIndices start n) x i
    friday_shifts := shiftsOn (fridayDayIndices start n) x i
    days := ((List.range n).filter (fun d => x i d)).map (fun d => start + d) }

/-- Result envelope of `generate_schedule` after a feasible solve:
either the success payload or the defensive `no_solution` reclassification. -/
inductive SchedResult where
  | success (startDate endDate : Nat) (schedule : List (Nat × ScheduleEntry))
      (assignments : List (String × StaffTally))
  | noSolution (msg : String)
deriving Repr, DecidableEq

/-- The `staff_assignments` dict (scheduler.py lines 262-279): keyed by the
staff member's name, one write per staff index. -/
def staffAssignments (staff : List StaffMember) (start n : Nat) (x : Nat → Nat → Bool) :
    List (String × StaffTally) :=
  dictOfList (staff.enum.map (fun p => (p.2.name, mkTally staff start n x p.1)))

/-- Decoding of a feasible assignment (scheduler.py lines 219-287): build the
schedule dict over all days, reclassify to `no_solution` unless it has
exactly `num_days` entries, then build the per-name assignment dict. -/
def decodeResult (staff : List StaffMember) (start n : Nat) (x : Nat → Nat → Bool) : SchedResult :=
  let schedule := dictOfList ((List.range n).map (fun d => (start + d, decodeDay staff x d)))
  if schedule.length ≠ n then
    .noSolution ("Schedule generation error: Expected " ++ toString n ++
      " days, got " ++ toString schedule.length)
  else
    .success start (start + (n - 1)) schedule (staffAssignments staff start n x)

/-- Error kinds of the request validation layer. -/
inductive SchedErr where
  | InvalidRange
  | InvalidDate
deriving Repr, DecidableEq

/-- Calendar construction guarded by the request validation: main.py line 40
constrains `num_days` to `[7, 90]`, and scheduler.py lines 48-51 expand the
block into `num_days` consecutive dates from `start_date`. -/
def mkCalendar (start n : Nat) : Except SchedErr (List Nat) :=
  if n < 7 ∨ 90 < n then .error .InvalidRange
  else .ok ((List.range n).map (fun i => start + i))

instance (staff : List StaffMember) (w : Nat → Bool) (pair : Bool) :
    Decidable (dayCoverage staff w pair) := by
  unfold dayCoverage; infer_instance

instance (staff : List StaffMember) (w : Nat → Bool) :
    Decidable (juniorNotAlone staff w) := by
  unfold juniorNotAlone; infer_instance

instance (dayIdx : List Nat) (numStaff : Nat) (cnt : Nat → Nat) :
    Decidable (balanceCons dayIdx numStaff cnt) := by
  unfold balanceCons; infer_instance

instance (staff : List StaffMember) (n : Nat) (x : Nat → Nat → Bool) :
    Decidable (targetBand staff n x) := by
  unfold targetBand; infer_instance

instance (staff : List StaffMember) (start n : Nat) (x : Nat → Nat → Bool) :
    Decidable (modelCore staff start n x) := by
  unfold modelCore; infer_instance

instance (staff : List StaffMember) (start n : Nat) (x : Nat → Nat → Bool) :
    Decidable (modelSat staff start n x) := by
  unfold modelSat; infer_instance

instance (staff : List StaffMember) (start n : Nat) (x : Nat → Nat → Bool) :
    Decidable (specRelaxedModelSat staff start n x) := by
  unfold specRelaxedModelSat; infer_instance

/-- Two Seniors with targets 4 and 3, used as a feasible seven-day fixture. -/
def twoSeniors : List StaffMember :=
  [⟨"Dr. Smith", "Senior", 4, []⟩, ⟨"Dr. Brown", "Senior", 3, []⟩]

/-- The alternating assignment: staff 0 works the even days, staff 1 the odd
days, everyone else never works. -/
def altShifts : Nat → Nat → Bool :=
  fun s d => if s == 0 then d % 2 == 0 else if s == 1 then d % 2 == 1 else false

/-- Three Seniors with targets 4, 4 and 1; under `altShifts` the third one
never works. -/
def threeSeniors : List StaffMember :=
  [⟨"Dr. Smith", "Senior", 4, []⟩, ⟨"Dr. Brown", "Senior", 4, []⟩, ⟨"Dr. Jones", "Senior", 1, []⟩]

/-- Two Seniors who both target 7 shifts over a 7-day block: the strict
target band demands at least 6 shifts each, which no-back-to-back forbids. -/
def sevenSeniors : List StaffMember :=
  [⟨"Dr. A", "Senior", 7, []⟩, ⟨"Dr. B", "Senior", 7, []⟩]

/-- Two distinct Senior staff members who share the name "Dr. X". -/
def dupNames : List StaffMember :=
  [⟨"Dr. X", "Senior", 4, []⟩, ⟨"Dr. X", "Senior", 3, []⟩]

/-- The empty assignment: nobody ever works. -/
def noShifts : Nat → Nat → Bool := fun _ _ => false

theorem bN_le_one (b : Bool) : bN b ≤ 1 := by cases b <;> simp [bN]

/-- A role string matches at most one of the three canonical role names. -/
theorem role_excl (r : String) :
    bN (r == "Intermediate") + bN (r == "Senior") + bN (r == "Junior") ≤ 1 := by
  by_cases h1 : r = "Intermediate" <;> by_cases h2 : r = "Senior" <;> by_cases h3 : r = "Junior" <;>
    simp_all [bN]

theorem countP_three_excl {α : Type} (l : List α) (p q1 q2 q3 : α → Bool)
    (h : ∀ a ∈ l, bN (q1 a) + bN (q2 a) + bN (q3 a) ≤ 1) :
    l.countP (fun a => p a && q1 a) + l.countP (fun a => p a && q2 a) +
      l.countP (fun a => p a && q3 a) ≤ l.countP p := by
  induction l with
  | nil => simp
  | cons a t ih =>
    simp only [List.countP_cons]
    have ha := h a (List.mem_cons_self a t)
    have ht := ih (fun b hb => h b (List.mem_cons_of_mem _ hb))
    cases hp : p a <;> cases hq1 : q1 a <;> cases hq2 : q2 a <;> cases hq3 : q3 a <;>
      simp_all [bN] <;> omega

theorem roleWorking_eq_enum (staff : List StaffMember) (r : String) (w : Nat → Bool) :
    roleWorking staff r w = staff.enum.countP (fun p => w p.1 && p.2.role == r) := by
  unfold roleWorking roleIndices
  rw [List.countP_map, List.countP_filter]
  rfl

theorem totalWorking_eq_enum (staff : List StaffMember) (w : Nat → Bool) :
    totalWorking staff w = staff.enum.countP (fun p => w p.1) := by
  unfold totalWorking
  rw [← List.enum_map_fst staff, List.countP_map]
  rfl

/-- The three role counts never exceed the total head count of a day. -/
theorem roles_le_total (staff : List StaffMember) (w : Nat → Bool) :
    roleWorking staff "Intermediate" w + roleWorking staff "Senior" w +
      roleWorking staff "Junior" w ≤ totalWorking staff w := by
  rw [roleWorking_eq_enum, roleWorking_eq_enum, roleWorking_eq_enum, totalWorking_eq_enum]
  exact countP_three_excl staff.enum (fun p => w p.1)
    (fun p => p.2.role == "Intermediate") (fun p => p.2.role == "Senior")
    (fun p => p.2.role == "Junior") (fun a _ => role_excl a.2.role)

/-- The coverage shapes named by the spec: one Intermediate alone, one
Senior alone, or one Senior together with one Junior. -/
def coveredShape (staff : List StaffMember) (w : Nat → Bool) : Prop :=
  (totalWorking staff w = 1 ∧ roleWorking staff "Intermediate" w = 1) ∨
  (totalWorking staff w = 1 ∧ roleWorking staff "Senior" w = 1) ∨
  (totalWorking staff w = 2 ∧ roleWorking staff "Senior" w = 1 ∧
    roleWorking staff "Junior" w = 1)

theorem juniorNotAlone_of_none (staff : List StaffMember) (w : Nat → Bool)
    (hj : roleWorking staff "Junior" w = 0) : juniorNotAlone staff w := by
  unfold roleWorking at hj
  intro j hjmem
  have := List.countP_eq_zero.mp hj j hjmem
  simp only [juniorIndices] at hjmem
  simp only [Bool.not_eq_true] at this
  simp [bN, this]

/-- C2: for every day and every 0/1 assignment to that day's variables, the
posted day constraints (coverage with the `is_pair` indicator, plus the
junior-needs-senior constraints) are satisfiable for some value of the
indicator exactly when the working set is one Intermediate, one Senior, or
one Senior with one Junior. -/
theorem c2_day_constraints_iff_coverage_shape (staff : List StaffMember) (w : Nat → Bool) :
    (∃ pair : Bool, dayCoverage staff w pair ∧ juniorNotAlone staff w) ↔
      coveredShape staff w := by
  have hle := roles_le_total staff w
  constructor
  · rintro ⟨pair, hc, -⟩
    cases pair with
    | false =>
      obtain ⟨-, -, -, hf⟩ := hc
      obtain ⟨ht, his, hj⟩ := hf rfl
      unfold coveredShape
      omega
    | true =>
      obtain ⟨-, -, htr, -⟩ := hc
      obtain ⟨ht, hsn, hj, hi⟩ := htr rfl
      unfold coveredShape
      omega
  · intro hshape
    unfold coveredShape at hshape
    rcases hshape with ⟨ht, hi⟩ | ⟨ht, hsn⟩ | ⟨ht, hsn, hj⟩
    · have hj0 : roleWorking staff "Junior" w = 0 := by omega
      refine ⟨false, ⟨by omega, by omega, by simp, fun _ => ⟨ht, by omega, hj0⟩⟩,
        juniorNotAlone_of_none staff w hj0⟩
    · have hj0 : roleWorking staff "Junior" w = 0 := by omega
      refine ⟨false, ⟨by omega, by omega, by simp, fun _ => ⟨ht, by omega, hj0⟩⟩,
        juniorNotAlone_of_none staff w hj0⟩
    · have hi0 : roleWorking staff "Intermediate" w = 0 := by omega
      refine ⟨true, ⟨by omega, by omega, fun _ => ⟨ht, hsn, hj, hi0⟩, by simp⟩, ?_⟩
      intro j hjmem
      have := bN_le_one (w j)
      omega

theorem find?_congr_local {α : Type} {p q : α → Bool} (l : List α) (h : ∀ a ∈ l, p a = q a) :
    l.find? p = l.find? q := by
  induction l with
  | nil => rfl
  | cons a t ih =>
    have ha := h a (List.mem_cons_self a t)
    have ht := ih (fun b hb => h b (List.mem_cons_of_mem _ hb))
    cases hqa : q a
    · rw [List.find?_cons_of_neg _ (by simp [ha, hqa]), List.find?_cons_of_neg _ (by simp [hqa]), ht]
    · rw [List.find?_cons_of_pos _ (by simp [ha, hqa]), List.find?_cons_of_pos _ (by simp [hqa])]

theorem getVal_upsert {κ α : Type} [BEq κ] [LawfulBEq κ] (m : List (κ × α)) (k' : κ) (v : α) (k : κ) :
    getVal k (upsert m k' v) = if k' == k then some v else getVal k m := by
  unfold upsert getVal
  by_cases hany : m.any (fun p => p.1 == k') = true
  · simp only [hany, if_true, List.find?_map]
    by_cases hk : k' = k
    · subst hk
      have hcongr :
          List.find? ((fun q : κ × α => q.1 == k') ∘
              fun p : κ × α => if p.1 == k' then (k', v) else p) m =
            List.find? (fun p : κ × α => p.1 == k') m := by
        refine find?_congr_local m ?_
        intro p _
        by_cases hp : p.1 = k' <;> simp [hp]
      rw [hcongr]
      obtain ⟨p1, hp1, hp1k⟩ := List.any_eq_true.mp hany
      have hsome : (m.find? (fun p : κ × α => p.1 == k')).isSome :=
        List.find?_isSome.mpr ⟨p1, hp1, hp1k⟩
      obtain ⟨p0, hp0⟩ := Option.isSome_iff_exists.mp hsome
      have hp0k := List.find?_some hp0
      simp [hp0, hp0k]
    · have hcongr :
          List.find? ((fun q : κ × α => q.1 == k) ∘
              fun p : κ × α => if p.1 == k' then (k', v) else p) m =
            List.find? (fun p : κ × α => p.1 == k) m := by
        refine find?_congr_local m ?_
        intro p _
        by_cases hp : p.1 = k' <;> by_cases hpk : p.1 = k <;>
          simp_all [fun h : k' = k => hk h]
      rw [hcongr]
      simp only [beq_iff_eq, hk, if_false]
      cases hfind : m.find? (fun p : κ × α => p.1 == k)
      · simp
      · rename_i p0
        have hpk := List.find?_some hfind
        simp only [beq_iff_eq] at hpk
        have hp0k' : p0.1 ≠ k' := by
          rw [hpk]
          exact fun h => hk h.symm
        simp [hp0k']
  · simp only [hany, if_false, List.find?_append]
    by_cases hk : k' = k
    · subst hk
      have hnone : m.find? (fun p : κ × α => p.1 == k') = none := by
        rw [List.find?_eq_none]
        intro p hp
        exact fun hc => hany (List.any_eq_true.mpr ⟨p, hp, hc⟩)
      simp [hnone]
    · have hbf : (k' == k) = false := by simp [hk]
      have hone : List.find? (fun p : κ × α => p.1 == k) [(k', v)] = none := by
        simp [List.find?, hbf]
      simp [hone, Option.or_none, hk]

theorem getVal_foldl_upsert {κ α : Type} [BEq κ] [LawfulBEq κ]
    (l : List (κ × α)) (m0 : List (κ × α)) (k : κ) :
    getVal k (l.foldl (fun m p => upsert m p.1 p.2) m0) =
      ((l.reverse.find? (fun p => p.1 == k)).map Prod.snd).or (getVal k m0) := by
  induction l generalizing m0 with
  | nil => simp
  | cons a t ih =>
    rw [List.foldl_cons, ih, getVal_upsert, List.reverse_cons, List.find?_append]
    cases hfind : t.reverse.find? (fun p => p.1 == k)
    · by_cases ha : a.1 == k <;> simp [List.find?, ha]
    · simp

theorem getVal_dictOfList {κ α : Type} [BEq κ] [LawfulBEq κ] (l : List (κ × α)) (k : κ) :
    getVal k (dictOfList l) = (l.reverse.find? (fun p => p.1 == k)).map Prod.snd := by
  rw [dictOfList, getVal_foldl_upsert]
  have : getVal k ([] : List (κ × α)) = none := rfl
  rw [this, Option.or_none]

theorem keys_upsert {κ α : Type} [BEq κ] [LawfulBEq κ] (m : List (κ × α)) (k : κ) (v : α) :
    (upsert m k v).map Prod.fst =
      if m.any (fun p => p.1 == k) then m.map Prod.fst else m.map Prod.fst ++ [k] := by
  unfold upsert
  by_cases hany : m.any (fun p => p.1 == k) = true <;> simp only [hany, if_true, if_false]
  · rw [List.map_map]
    refine List.map_congr_left ?_
    intro p _
    by_cases hp : p.1 = k <;> simp [hp]
  · simp

theorem keys_nodup_upsert {κ α : Type} [BEq κ] [LawfulBEq κ]
    (m : List (κ × α)) (k : κ) (v : α) (h : (m.map Prod.fst).Nodup) :
    ((upsert m k v).map Prod.fst).Nodup := by
  rw [keys_upsert]
  by_cases hany : m.any (fun p => p.1 == k) = true <;> simp only [hany, if_true, if_false]
  · exact h
  · have hk : k ∉ m.map Prod.fst := by
      intro hmem
      obtain ⟨p, hp, hpk⟩ := List.mem_map.mp hmem
      exact hany (List.any_eq_true.mpr ⟨p, hp, by simp [hpk]⟩)
    refine h.append (List.nodup_singleton k) ?_
    intro a ha hamem
    rw [List.mem_singleton] at hamem
    subst hamem
    exact hk ha

theorem mem_keys_upsert {κ α : Type} [BEq κ] [LawfulBEq κ]
    (m : List (κ × α)) (k : κ) (v : α) (k' : κ) :
    k' ∈ (upsert m k v).map Prod.fst ↔ k' ∈ m.map Prod.fst ∨ k' = k := by
  rw [keys_upsert]
  by_cases hany : m.any (fun p => p.1 == k) = true <;> simp only [hany, if_true, if_false]
  · constructor
    · exact Or.inl
    · rintro (h | rfl)
      · exact h
      · obtain ⟨p, hp, hpk⟩ := List.any_eq_true.mp hany
        simp only [beq_iff_eq] at hpk
        exact List.mem_map.mpr ⟨p, hp, hpk⟩
  · simp [List.mem_append]

theorem keys_nodup_foldl_upsert {κ α : Type} [BEq κ] [LawfulBEq κ]
    (l : List (κ × α)) (m0 : List (κ × α)) (h : (m0.map Prod.fst).Nodup) :
    ((l.foldl (fun m p => upsert m p.1 p.2) m0).map Prod.fst).Nodup := by
  induction l generalizing m0 with
  | nil => exact h
  | cons a t ih => exact ih _ (keys_nodup_upsert m0 a.1 a.2 h)

/-- The keys of a dict are distinct. -/
theorem keys_nodup_dictOfList {κ α : Type} [BEq κ] [LawfulBEq κ] (l : List (κ × α)) :
    ((dictOfList l).map Prod.fst).Nodup :=
  keys_nodup_foldl_upsert l [] List.nodup_nil

theorem mem_keys_foldl_upsert {κ α : Type} [BEq κ] [LawfulBEq κ]
    (l : List (κ × α)) (m0 : List (κ × α)) (k' : κ) :
    k' ∈ (l.foldl (fun m p => upsert m p.1 p.2) m0).map Prod.fst ↔
      k' ∈ m0.map Prod.fst ∨ k' ∈ l.map Prod.fst := by
  induction l generalizing m0 with
  | nil => simp
  | cons a t ih =>
    rw [List.foldl_cons, ih, mem_keys_upsert]
    simp only [List.map_cons, List.mem_cons]
    tauto

/-- A key appears in the dict exactly when some written pair carries it. -/
theorem mem_keys_dictOfList {κ α : Type} [BEq κ] [LawfulBEq κ] (l : List (κ × α)) (k' : κ) :
    k' ∈ (dictOfList l).map Prod.fst ↔ k' ∈ l.map Prod.fst := by
  rw [dictOfList, mem_keys_foldl_upsert]
  simp

theorem foldl_upsert_eq_append {κ α : Type} [BEq κ] [LawfulBEq κ]
    (l : List (κ × α)) (m0 : List (κ × α)) (h : ((m0 ++ l).map Prod.fst).Nodup) :
    l.foldl (fun m p => upsert m p.1 p.2) m0 = m0 ++ l := by
  induction l generalizing m0 with
  | nil => simp
  | cons a t ih =>
    rw [List.map_append] at h
    have hdisj := (List.nodup_append.mp h).2.2
    have hnotin : a.1 ∉ m0.map Prod.fst := fun hmem => hdisj hmem (by simp)
    have hany : m0.any (fun p => p.1 == a.1) = false := by
      rw [← Bool.not_eq_true, List.any_eq_true]
      rintro ⟨p, hp, hpk⟩
      simp only [beq_iff_eq] at hpk
      exact hnotin (List.mem_map.mpr ⟨p, hp, hpk⟩)
    have hup : upsert m0 a.1 a.2 = m0 ++ [a] := by
      unfold upsert
      simp [hany]
    rw [List.foldl_cons, hup, ih]
    · simp
    · simpa [List.append_assoc] using h

/-- Writing pairs with pairwise-distinct keys into a dict keeps them all in
order. -/
theorem dictOfList_eq_self {κ α : Type} [BEq κ] [LawfulBEq κ]
    (l : List (κ × α)) (h : (l.map Prod.fst).Nodup) : dictOfList l = l := by
  rw [dictOfList, foldl_upsert_eq_append]
  · simp
  · simpa using h

theorem schedule_dict_eq (staff : List StaffMember) (start n : Nat) (x : Nat → Nat → Bool) :
    dictOfList ((List.range n).map (fun d => (start + d, decodeDay staff x d))) =
      (List.range n).map (fun d => (start + d, decodeDay staff x d)) := by
  apply dictOfList_eq_self
  rw [List.map_map]
  have hfn : (Prod.fst ∘ fun d => (start + d, decodeDay staff x d)) = (fun d => start + d) := rfl
  rw [hfn]
  exact (List.nodup_range n).map (fun a b hab => by omega)

/-- The decoder never triggers the defensive reclassification: the block's
dates are pairwise distinct, so the schedule dict has one entry per day. -/
theorem decodeResult_eq (staff : List StaffMember) (start n : Nat) (x : Nat → Nat → Bool) :
    decodeResult staff start n x =
      .success start (start + (n - 1))
        ((List.range n).map (fun d => (start + d, decodeDay staff x d)))
        (staffAssignments staff start n x) := by
  unfold decodeResult
  rw [schedule_dict_eq]
  simp

theorem countP_range_shift (n start c : Nat) :
    (List.range n).countP (fun d => start + d == c) =
      if start ≤ c ∧ c < start + n then 1 else 0 := by
  induction n with
  | zero =>
    rw [List.range_zero]
    simp only [List.countP_nil]
    rw [if_neg (by omega)]
  | succ n ih =>
    rw [List.range_succ, List.countP_append, ih]
    have hsing : List.countP (fun d => start + d == c) [n] = if start + n = c then 1 else 0 := by
      rw [List.countP_cons, List.countP_nil]
      by_cases hc : start + n = c
      · rw [if_pos (by simp [hc]), if_pos hc]
      · rw [if_neg (by simp [hc]), if_neg hc]
    rw [hsing]
    split_ifs <;> omega

/-- C3: for every successful decode, the schedule map has exactly `num_days`
entries and contains each date of `[start_date, start_date + num_days)` as a
key exactly once (and dates outside the block never appear); results of any
other size are reclassified to `no_solution` by construction of
`decodeResult`. -/
theorem c3_success_schedule_dates_exactly_once (staff : List StaffMember) (start n : Nat)
    (x : Nat → Nat → Bool) (sd ed : Nat) (sched : List (Nat × ScheduleEntry))
    (asg : List (String × StaffTally))
    (h : decodeResult staff start n x = .success sd ed sched asg) :
    sched.length = n ∧
      ∀ c : Nat, sched.countP (fun p => p.1 == c) =
        if start ≤ c ∧ c < start + n then 1 else 0 := by
  rw [decodeResult_eq] at h
  obtain ⟨-, -, rfl, -⟩ := SchedResult.success.inj h.symm
  constructor
  · simp
  · intro c
    rw [List.countP_map]
    have hfn : ((fun p : Nat × ScheduleEntry => p.1 == c) ∘
        fun d => (start + d, decodeDay staff x d)) = (fun d => start + d == c) := rfl
    rw [hfn, countP_range_shift]

/-- The schedule produced for the alternating two-Senior block. -/
def altSched : List (Nat × ScheduleEntry) :=
  (List.range 7).map (fun d => (0 + d, decodeDay twoSeniors altShifts d))

/-- The per-name assignment dict produced for the alternating two-Senior
block. -/
def altAsg : List (String × StaffTally) :=
  staffAssignments twoSeniors 0 7 altShifts

theorem c3_success_schedule_dates_exactly_once_witness :
    altSched.length = 7 ∧ altSched.countP (fun p => p.1 == 3) = 1 := by
  have h := c3_success_schedule_dates_exactly_once twoSeniors 0 7 altShifts 0 6 altSched altAsg
    (by decide)
  refine ⟨h.1, ?_⟩
  have h3 := h.2 3
  simpa using h3

/-- C9: constructing the calendar fails with `InvalidRange` exactly when
`num_days` is outside `[7, 90]`; inside the range it yields the `num_days`
consecutive dates starting at `start_date`. -/
theorem c9_calendar_range_check (start n : Nat) :
    (mkCalendar start n = .error .InvalidRange ↔ (n < 7 ∨ 90 < n)) ∧
      ∀ dates, mkCalendar start n = .ok dates →
        dates.length = n ∧ ∀ i < n, dates.getD i 0 = start + i := by
  unfold mkCalendar
  by_cases h : n < 7 ∨ 90 < n
  · rw [if_pos h]
    refine ⟨⟨fun _ => h, fun _ => rfl⟩, fun dates hd => (by cases hd)⟩
  · rw [if_neg h]
    refine ⟨⟨fun hc => (by cases hc), fun hc => absurd hc h⟩, ?_⟩
    intro dates hd
    obtain rfl := (Except.ok.inj hd).symm
    refine ⟨by simp, ?_⟩
    intro i hi
    rw [List.getD_eq_getElem?_getD, List.getElem?_map, List.getElem?_range hi]
    rfl

theorem c9_calendar_range_check_witness :
    ((List.range 28).map (fun i => 0 + i)).length = 28 :=
  ((c9_calendar_range_check 0 28).2 ((List.range 28).map (fun i => 0 + i)) rfl).1

theorem relaxStaff_eq_self (staff : List StaffMember)
    (h : ∀ st ∈ staff, 1 ≤ st.target_shifts) : relaxStaff staff = staff := by
  unfold relaxStaff
  conv_rhs => rw [← List.map_id staff]
  refine List.map_congr_left ?_
  intro st hst
  have h1 := h st hst
  have hmax : max 1 st.target_shifts = st.target_shifts := by omega
  rw [hmax]
  rfl

/-- C10: when every target is at least 1 (guaranteed by request validation),
`max(1, target_shifts)` changes nothing, so the relaxed rerun posts exactly
the strict model, and the two-phase driver reports `no_solution` exactly when
the strict model alone is infeasible. -/
theorem c10_relaxed_model_identical (staff : List StaffMember) (start n : Nat)
    (h : ∀ st ∈ staff, 1 ≤ st.target_shifts) :
    (∀ x, modelSat (relaxStaff staff) start n x ↔ modelSat staff start n x) ∧
      (twoPhaseNoSolution staff start n ↔ strictUnsat staff start n) := by
  unfold twoPhaseNoSolution
  rw [relaxStaff_eq_self staff h]
  exact ⟨fun x => Iff.rfl, ⟨fun hh => hh.1, fun hh => ⟨hh, hh⟩⟩⟩

theorem c10_relaxed_model_identical_witness :
    modelSat (relaxStaff twoSeniors) 0 7 altShifts ↔ modelSat twoSeniors 0 7 altShifts :=
  (c10_relaxed_model_identical twoSeniors 0 7 (by decide)).1 altShifts

/-- C1 (divergence at the failing input): with two Seniors who both target 7
shifts over a 7-day block, the alternating 4/3 assignment satisfies the
spec's relaxed model (target band dropped, everyone at least one day), but
the model actually rebuilt by `generate_schedule_with_relaxation` still
posts the band `[6, 8]` for both staff and rejects it: the code never drops
the band. -/
theorem c1_relaxed_model_differs_from_spec :
    specRelaxedModelSat sevenSeniors 0 7 altShifts ∧
      ¬ modelSat (relaxStaff sevenSeniors) 0 7 altShifts := by decide

/-- C6 (divergence): the relaxed-phase model built by the code admits a
satisfying assignment in which the Senior with target 1 works zero days, so
a relaxed-phase success does not guarantee `actual ≥ 1` for every staff
member. -/
theorem c6_relaxed_model_allows_zero_shifts :
    modelSat (relaxStaff threeSeniors) 0 7 altShifts ∧
      (mkTally (relaxStaff threeSeniors) 0 7 altShifts 2).actual = 0 := by decide

/-- C7 (counterexample): with two distinct Senior staff both named "Dr. X"
working 4 and 3 days, the returned `staff_assignments` holds a single entry,
carrying only the second staff member's tally, although the constraint model
tallies the two indices separately (4 and 3 shifts). -/
theorem c7_duplicate_names_collapse_counterexample :
    dupNames.length = 2 ∧
      (staffAssignments dupNames 0 7 altShifts).length = 1 ∧
      (mkTally dupNames 0 7 altShifts 0).actual = 4 ∧
      (mkTally dupNames 0 7 altShifts 1).actual = 3 ∧
      getVal "Dr. X" (staffAssignments dupNames 0 7 altShifts) =
        some (mkTally dupNames 0 7 altShifts 1) := by decide

/-- C7 (amended): duplicate names are tolerated and the constraint model and
per-index tallies treat the namesakes as distinct staff, but the returned
`staff_assignments` dict is keyed by name: it has pairwise-distinct keys, one
per distinct staff name, and the value at a name is the tally of the last
staff index carrying that name. -/
theorem c7_assignments_keyed_by_name (staff : List StaffMember) (start n : Nat)
    (x : Nat → Nat → Bool) :
    ((staffAssignments staff start n x).map Prod.fst).Nodup ∧
      (∀ k, k ∈ (staffAssignments staff start n x).map Prod.fst ↔
        k ∈ staff.map (fun st => st.name)) ∧
      ∀ k, getVal k (staffAssignments staff start n x) =
        (staff.enum.reverse.find? (fun p => p.2.name == k)).map
          (fun p => mkTally staff start n x p.1) := by
  refine ⟨keys_nodup_dictOfList _, ?_, ?_⟩
  · intro k
    rw [staffAssignments, mem_keys_dictOfList, List.map_map]
    have hfn : (Prod.fst ∘ fun p : Nat × StaffMember => (p.2.name, mkTally staff start n x p.1)) =
        ((fun st : StaffMember => st.name) ∘ Prod.snd) := rfl
    rw [hfn, ← List.map_map, List.enum_map_snd]
  · intro k
    rw [staffAssignments, getVal_dictOfList, ← List.map_reverse, List.find?_map]
    have hfn : ((fun p : String × StaffTally => p.1 == k) ∘
        fun p : Nat × StaffMember => (p.2.name, mkTally staff start n x p.1)) =
        (fun p : Nat × StaffMember => p.2.name == k) := rfl
    rw [hfn, Option.map_map]
    rfl

/-- C8 (counterexample): on the empty assignment, day 0 has zero working
staff, yet the decoder emits the string entry "Unassigned" for it and the
whole result is still returned as a success, with no failure of any kind. -/
theorem c8_unassigned_counterexample :
    decodeDay twoSeniors noShifts 0 = .soloStr "Unassigned" ∧
      decodeResult twoSeniors 0 7 noShifts =
        .success 0 6 ((List.range 7).map (fun d => (0 + d, decodeDay twoSeniors noShifts d)))
          (staffAssignments twoSeniors 0 7 noShifts) := by decide

/-- C8 (amended): for any day on which the solver assignment puts zero staff
or more than two staff, the decoder emits the entry "Unassigned" for that
day instead of failing, and the overall decode still returns a success
payload. -/
theorem c8_decode_unassigned (staff : List StaffMember) (start n : Nat)
    (x : Nat → Nat → Bool) (d : Nat)
    (h : (workingList staff x d).length = 0 ∨ 2 < (workingList staff x d).length) :
    decodeDay staff x d = .soloStr "Unassigned" ∧
      decodeResult staff start n x =
        .success start (start + (n - 1))
          ((List.range n).map (fun e => (start + e, decodeDay staff x e)))
          (staffAssignments staff start n x) := by
  refine ⟨?_, decodeResult_eq staff start n x⟩
  simp only [decodeDay]
  rcases h with h | h
  · rw [if_neg (by omega), if_neg (by omega)]
  · rw [if_neg (by omega), if_neg (by omega)]

theorem c8_decode_unassigned_witness :
    decodeDay twoSeniors noShifts 3 = .soloStr "Unassigned" :=
  (c8_decode_unassigned twoSeniors 0 7 noShifts 3 (by decide)).1

/-- C5: in any result decoded from an assignment satisfying the model, with
at least two staff, the per-staff `weekend_shifts` tallies pairwise differ by
at most 1 whenever the block has a weekend day (so their maximum minus their
minimum is at most 1), and likewise for `friday_shifts` whenever the block
has a Friday. -/
theorem c5_weekend_friday_balance (staff : List StaffMember) (start n : Nat)
    (x : Nat → Nat → Bool) (h : modelSat staff start n x) (hs : 2 ≤ staff.length)
    (s1 s2 : Nat) (h1 : s1 < staff.length) (h2 : s2 < staff.length) :
    (0 < (weekendDayIndices start n).length →
      (mkTally staff start n x s1).weekend_shifts ≤
        (mkTally staff start n x s2).weekend_shifts + 1) ∧
    (0 < (fridayDayIndices start n).length →
      (mkTally staff start n x s1).friday_shifts ≤
        (mkTally staff start n x s2).friday_shifts + 1) := by
  unfold modelSat modelCore at h
  obtain ⟨⟨-, -, -, -, hwb, hfb⟩, -⟩ := h
  constructor
  · intro hw
    obtain ⟨mn, mx, hmm, hall⟩ := hwb hw (by omega)
    have ha := hall s1 h1
    have hb := hall s2 h2
    simp only [mkTally]
    omega
  · intro hf
    obtain ⟨mn, mx, hmm, hall⟩ := hfb hf (by omega)
    have ha := hall s1 h1
    have hb := hall s2 h2
    simp only [mkTally]
    omega

theorem c5_weekend_friday_balance_witness :
    (mkTally twoSeniors 0 7 altShifts 0).weekend_shifts ≤
      (mkTally twoSeniors 0 7 altShifts 1).weekend_shifts + 1 := by
  have h := c5_weekend_friday_balance twoSeniors 0 7 altShifts (by decide) (by decide)
    0 1 (by decide) (by decide)
  exact h.1 (by decide)

theorem countP_flatMap_local {α β : Type} (l : List α) (f : α → List β) (p : β → Bool) :
    (l.flatMap f).countP p = (l.map (fun a => (f a).countP p)).sum := by
  induction l with
  | nil => rfl
  | cons a t ih =>
    rw [List.flatMap_cons, List.countP_append, List.map_cons, List.sum_cons, ih]

theorem sum_map_bN {α : Type} (l : List α) (p : α → Bool) :
    (l.map (fun a => bN (p a))).sum = l.countP p := by
  induction l with
  | nil => rfl
  | cons a t ih =>
    rw [List.map_cons, List.sum_cons, List.countP_cons, ih, bN]
    omega

theorem countP_singleton_local {α : Type} (p : α → Bool) (a : α) :
    List.countP p [a] = bN (p a) := by
  rw [List.countP_cons, List.countP_nil]
  cases hp : p a <;> simp [bN]

theorem countP_range_shift_and (n start c : Nat) (p : Nat → Bool) :
    (List.range n).countP (fun d => (start + d == c) && p d) =
      if start ≤ c ∧ c < start + n ∧ p (c - start) then 1 else 0 := by
  induction n with
  | zero =>
    rw [List.range_zero]
    simp only [List.countP_nil]
    rw [if_neg (by rintro ⟨h1, h2, -⟩; omega)]
  | succ n ih =>
    rw [List.range_succ, List.countP_append, ih, countP_singleton_local]
    by_cases hc : start + n = c
    · have hcs : c - start = n := by omega
      have hb : (start + n == c) = true := by simp [hc]
      rw [hb, Bool.true_and, if_neg (by rintro ⟨-, h2, -⟩; omega), hcs]
      cases hp : p n
      · rw [if_neg (by rintro ⟨-, -, hq⟩; cases hq)]
        simp [bN]
      · rw [if_pos ⟨by omega, by omega, rfl⟩]
        simp [bN]
    · have hb : (start + n == c) = false := by simp [hc]
      rw [hb, Bool.false_and]
      have hb0 : bN false = 0 := rfl
      rw [hb0]
      by_cases hin : start ≤ c ∧ c < start + n ∧ p (c - start)
      · rw [if_pos hin, if_pos ⟨hin.1, by omega, hin.2.2⟩]
      · rw [if_neg hin, if_neg (by rintro ⟨hq1, hq2, hq3⟩; exact hin ⟨hq1, by omega, hq3⟩)]

theorem workingList_length (staff : List StaffMember) (x : Nat → Nat → Bool) (d : Nat) :
    (workingList staff x d).length = totalWorking staff (fun s => x s d) := by
  rw [workingList, List.length_map, ← List.countP_eq_length_filter, totalWorking_eq_enum]

theorem workingList_countP_role (staff : List StaffMember) (x : Nat → Nat → Bool) (d : Nat)
    (r : String) :
    (workingList staff x d).countP (fun st => st.role == r) =
      roleWorking staff r (fun s => x s d) := by
  rw [workingList, List.countP_map, List.countP_filter, roleWorking_eq_enum]
  refine List.countP_congr ?_
  intro p hp
  simp only [Function.comp, Bool.and_eq_true]
  tauto

/-- Under the day-coverage constraints, the decoded entry of a day weighs
exactly the day's head count: solo days decode to a one-name entry, pair
days find their Senior and Junior and decode to the pair record. -/
theorem entryWeight_decodeDay (staff : List StaffMember) (x : Nat → Nat → Bool) (d : Nat)
    (hcov : ∃ pair : Bool, dayCoverage staff (fun s => x s d) pair) :
    entryWeight (decodeDay staff x d) = totalWorking staff (fun s => x s d) := by
  obtain ⟨pair, hc⟩ := hcov
  cases pair with
  | false =>
    obtain ⟨-, -, -, hf⟩ := hc
    obtain ⟨ht, -, -⟩ := hf rfl
    simp only [decodeDay]
    rw [if_pos (by rw [workingList_length]; omega), ht]
    rfl
  | true =>
    obtain ⟨-, -, htr, -⟩ := hc
    obtain ⟨ht, hsn, hj, -⟩ := htr rfl
    simp only [decodeDay]
    rw [if_neg (by rw [workingList_length]; omega),
      if_pos (by rw [workingList_length]; omega)]
    have hsr : ∃ a, (workingList staff x d).find? (fun st => st.role == "Senior") = some a := by
      have hpos : 0 < (workingList staff x d).countP (fun st => st.role == "Senior") := by
        rw [workingList_countP_role]
        omega
      obtain ⟨a, ha, hpa⟩ := List.countP_pos_iff.mp hpos
      exact Option.isSome_iff_exists.mp (List.find?_isSome.mpr ⟨a, ha, hpa⟩)
    have hjr : ∃ a, (workingList staff x d).find? (fun st => st.role == "Junior") = some a := by
      have hpos : 0 < (workingList staff x d).countP (fun st => st.role == "Junior") := by
        rw [workingList_countP_role]
        omega
      obtain ⟨a, ha, hpa⟩ := List.countP_pos_iff.mp hpos
      exact Option.isSome_iff_exists.mp (List.find?_isSome.mpr ⟨a, ha, hpa⟩)
    obtain ⟨sr, hsr⟩ := hsr
    obtain ⟨jr, hjr⟩ := hjr
    rw [hsr, hjr, ht]
    rfl

theorem countP_beq_replicate (m a c : Nat) :
    (List.replicate m a).countP (fun e => e == c) = if a = c then m else 0 := by
  rw [← List.count_eq_countP, List.count_replicate]
  by_cases hc : a = c
  · rw [if_pos (by simp [hc]), if_pos hc]
  · rw [if_neg (by simp [hc]), if_neg hc]

theorem sum_map_zero {α : Type} (l : List α) : (l.map (fun _ => (0 : Nat))).sum = 0 := by
  induction l with
  | nil => rfl
  | cons a t ih => simp [ih]

theorem sum_range_single (n start c : Nat) (g : Nat → Nat) :
    ((List.range n).map (fun d => if start + d = c then g d else 0)).sum =
      if start ≤ c ∧ c < start + n then g (c - start) else 0 := by
  induction n with
  | zero =>
    rw [List.range_zero, List.map_nil, List.sum_nil, if_neg (by omega)]
  | succ n ih =>
    rw [List.range_succ, List.map_append, List.sum_append, ih]
    simp only [List.map_cons, List.map_nil, List.sum_cons, List.sum_nil]
    by_cases hc : start + n = c
    · have hcs : c - start = n := by omega
      rw [if_neg (by omega), if_pos hc, if_pos (by omega), hcs]
      omega
    · rw [if_neg hc]
      by_cases hin : start ≤ c ∧ c < start + n
      · rw [if_pos hin, if_pos (by omega)]
        omega
      · rw [if_neg hin, if_neg (by omega)]
        omega

/-- C4: for every successful decode of an assignment that satisfies the
posted day-coverage constraints, the multiset union over all staff of the
decoded `days` lists equals the multiset of dates implied by the schedule
map, a solo entry contributing its date once and a pair entry twice. -/
theorem c4_days_multiset_matches_schedule (staff : List StaffMember) (start n : Nat)
    (x : Nat → Nat → Bool)
    (hcov : ∀ d < n, ∃ pair : Bool, dayCoverage staff (fun s => x s d) pair)
    (sd ed : Nat) (sched : List (Nat × ScheduleEntry)) (asg : List (String × StaffTally))
    (hdec : decodeResult staff start n x = .success sd ed sched asg) :
    ((((List.range staff.length).flatMap
        (fun s => (mkTally staff start n x s).days)) : List Nat) : Multiset Nat) =
      (((sched.flatMap (fun p => List.replicate (entryWeight p.2) p.1)) : List Nat) :
        Multiset Nat) := by
  rw [decodeResult_eq] at hdec
  obtain ⟨-, -, rfl, -⟩ := SchedResult.success.inj hdec.symm
  refine Multiset.ext.mpr ?_
  intro c
  rw [Multiset.coe_count, Multiset.coe_count, List.count_eq_countP, List.count_eq_countP,
    countP_flatMap_local, countP_flatMap_local]
  have hlhs : ∀ s : Nat, ((mkTally staff start n x s).days).countP (· == c) =
      if start ≤ c ∧ c < start + n ∧ x s (c - start) then 1 else 0 := by
    intro s
    simp only [mkTally]
    rw [List.countP_map, List.countP_filter]
    exact countP_range_shift_and n start c (fun d => x s d)
  have hrhs : ∀ d : Nat,
      (List.replicate (entryWeight (decodeDay staff x d)) (start + d)).countP (· == c) =
        if start + d = c then entryWeight (decodeDay staff x d) else 0 :=
    fun d => countP_beq_replicate _ _ _
  simp only [hlhs, List.map_map, Function.comp_def, hrhs]
  rw [sum_range_single n start c (fun d => entryWeight (decodeDay staff x d))]
  by_cases hin : start ≤ c ∧ c < start + n
  · rw [if_pos hin,
      entryWeight_decodeDay staff x (c - start) (hcov (c - start) (by omega))]
    have hmap1 : ∀ s ∈ List.range staff.length,
        (if start ≤ c ∧ c < start + n ∧ x s (c - start) then 1 else 0) =
          bN (x s (c - start)) := by
      intro s _
      cases hx : x s (c - start)
      · rw [if_neg (by rintro ⟨-, -, h3⟩; cases h3)]
        simp [bN]
      · rw [if_pos ⟨hin.1, hin.2, rfl⟩]
        simp [bN]
    rw [List.map_congr_left hmap1, sum_map_bN]
    rfl
  · rw [if_neg hin]
    have hmap0 : ∀ s ∈ List.range staff.length,
        (if start ≤ c ∧ c < start + n ∧ x s (c - start) then 1 else 0) = (fun _ => (0 : Nat)) s := by
      intro s _
      rw [if_neg (by rintro ⟨h1, h2, -⟩; exact hin ⟨h1, h2⟩)]
    rw [List.map_congr_left hmap0, sum_map_zero]

theorem c4_days_multiset_matches_schedule_witness :
    ((((List.range twoSeniors.length).flatMap
        (fun s => (mkTally twoSeniors 0 7 altShifts s).days)) : List Nat) : Multiset Nat) =
      (((altSched.flatMap (fun p => List.replicate (entryWeight p.2) p.1)) : List Nat) :
        Multiset Nat) :=
  c4_days_multiset_matches_schedule twoSeniors 0 7 altShifts (by decide) 0 6 altSched altAsg
    (by decide)
